import Mathlib

/-!
Formal model of the surface_regression data pipeline.

The definitions below are a shallow embedding of the repository code:
`load_dslf_surface.py` (camera parsing, the surface sample constructor
`calculate_x_y_z_theta_phi`, and `__getitem__`) and `residual_regression.py`
(the Gaussian Fourier feature matrix `B`).  Machine floats are modelled by
exact rationals, with the direction-normalisation layer over the reals.
Randomness (numpy `randint`, torch `normal`) is modelled by explicit draw
parameters supplied to the functions.
-/

namespace SurfaceRegression

abbrev Vec3 := Fin 3 → ℚ
abbrev Mat3 := Matrix (Fin 3) (Fin 3) ℚ
abbrev Mat4 := Matrix (Fin 4) (Fin 4) ℚ

/-- Zero vector used as the `getD` default for label rows. -/
def vZero : Vec3 := fun _ => 0

/- ## Camera extrinsic parsing (`load_dslf_surface.py`, `__init__` lines 86-93)

The Python code reads 16 whitespace tokens (an IndexError is raised when
fewer than 16 are present), reshapes them row-major into a 4x4 matrix and
then negates column 1 and column 2.  Tokens arrive here already converted
to rationals; the token-count failure is the modelled `ParseError`. -/

inductive ParseErr where
  | tooFewTokens
deriving DecidableEq

/-- M[:, 1] = -M[:, 1]; M[:, 2] = -M[:, 2] from the source. -/
def negYZ (M : Mat4) : Mat4 :=
  Matrix.of fun i j => if j = 1 ∨ j = 2 then -(M i j) else M i j

/-- np.reshape(M, (4,4)) of the first 16 tokens, row-major. -/
def reshape4 (tokens : List ℚ) : Mat4 :=
  Matrix.of fun i j => tokens.getD (4 * i.val + j.val) 0

def parseExtrinsic (tokens : List ℚ) : Except ParseErr Mat4 :=
  if tokens.length < 16 then .error .tooFewTokens
  else .ok (negYZ (reshape4 tokens))

/- ## Gaussian frequency basis (`residual_regression.py` line 111)

`B = torch.normal(0, 1, size=(ffm_map_size, 6)) * ffm_map_scale`.
The normal draw is modelled by the explicit `draws` parameter; the code
applies no check of any kind to the drawn rows. -/

def mkB (N : ℕ) (scale : ℚ) (draws : ℕ → ℕ → ℚ) : List (List ℚ) :=
  (List.range N).map fun i => (List.range 6).map fun j => draws i j * scale

/- ## Claim theorems for the two components above -/

/-- Claim C6: loading the extrinsic text parses 16 whitespace-separated
floats, reshapes them row-major into a 4x4 pose, then negates column 1 and
column 2; it fails with a parse error when fewer than 16 tokens are
present. -/
theorem extrinsic_parse_correct (tokens : List ℚ) :
    (tokens.length < 16 → parseExtrinsic tokens = .error .tooFewTokens) ∧
    (16 ≤ tokens.length →
      parseExtrinsic tokens =
        .ok (Matrix.of fun i j : Fin 4 =>
          (if j.val = 1 ∨ j.val = 2 then -1 else 1) *
            tokens.getD (4 * i.val + j.val) 0)) := by
  constructor
  · intro h
    simp [parseExtrinsic, h]
  · intro h
    have h2 : ¬ tokens.length < 16 := not_lt.mpr h
    simp only [parseExtrinsic, h2, if_false]
    congr 1
    ext i j
    fin_cases j <;>
      simp [negYZ, reshape4, Matrix.of_apply, neg_one_mul, Fin.ext_iff]

theorem extrinsic_parse_correct_witness :
    (16 ≤ (List.range 16 |>.map (fun i => (i : ℚ))).length) ∧
    parseExtrinsic (List.range 16 |>.map (fun i => (i : ℚ))) =
      .ok (Matrix.of fun i j : Fin 4 =>
        (if j.val = 1 ∨ j.val = 2 then -1 else 1) *
          ((List.range 16 |>.map (fun i => (i : ℚ))).getD (4 * i.val + j.val) 0)) :=
  ⟨by decide, (extrinsic_parse_correct _).2 (by decide)⟩

/-- Claim C9 counterexample: the code never checks for zero rows.  A draw
whose first row is all zeros passes straight through `mkB`: the zero row is
a member of the output, with no warning and no rejection, refuting the
claimed guarantee that no row of the output is the zero vector. -/
theorem gaussianB_zero_row_accepted :
    List.replicate 6 (0 : ℚ) ∈ mkB 1 10 (fun _ _ => 0) := by
  have h : mkB 1 10 (fun _ _ => 0) = [List.replicate 6 (0 : ℚ)] := by
    simp [mkB, List.eq_replicate_iff]
  rw [h]
  exact List.mem_singleton_self _

/-- Claim C9 (amended): the Gaussian variant returns exactly the drawn
N x 6 matrix scaled by the fixed constant - N rows, each of width 6 (hence
shape (1024, 6) for N = 1024), entry (i, j) equal to draw(i, j) * scale -
and performs no zero-row check: for a nonzero scale, row i of the output
is the zero row exactly when the drawn row i is all zeros, and such a row
is silently accepted. -/
theorem gaussianB_shape_and_entries (N : ℕ) (scale : ℚ) (draws : ℕ → ℕ → ℚ)
    (hs : scale ≠ 0) :
    (mkB N scale draws).length = N ∧
    (∀ row ∈ mkB N scale draws, row.length = 6) ∧
    (∀ i, i < N →
      (mkB N scale draws).getD i [] =
        (List.range 6).map fun j => draws i j * scale) ∧
    (∀ i, i < N →
      ((mkB N scale draws).getD i [] = List.replicate 6 0 ↔
        ∀ j, j < 6 → draws i j = 0)) := by
  have hget : ∀ i, i < N →
      (mkB N scale draws).getD i [] =
        (List.range 6).map fun j => draws i j * scale := by
    intro i hi
    have hi2 : i < (List.range N).length := by simpa using hi
    simp [mkB, List.getD_eq_getElem?_getD, List.getElem?_map,
      List.getElem?_range, hi]
  refine ⟨by simp [mkB], ?_, hget, ?_⟩
  · intro row hrow
    simp only [mkB, List.mem_map] at hrow
    obtain ⟨i, _, rfl⟩ := hrow
    simp
  · intro i hi
    rw [hget i hi]
    rw [List.eq_replicate_iff]
    constructor
    · rintro ⟨-, hall⟩ j hj
      have := hall (draws i j * scale) (by
        refine List.mem_map.mpr ⟨j, ?_, rfl⟩
        simpa using hj)
      rcases mul_eq_zero.mp this with h | h
      · exact h
      · exact absurd h hs
    · intro hall
      refine ⟨by simp, ?_⟩
      intro b hb
      simp only [List.mem_map, List.mem_range] at hb
      obtain ⟨j, hj, rfl⟩ := hb
      rw [hall j hj, zero_mul]

theorem gaussianB_shape_and_entries_witness :
    ((10 : ℚ) ≠ 0) ∧
    ((mkB 2 10 (fun _ _ => 1)).length = 2 ∧
    (∀ row ∈ mkB 2 10 (fun _ _ => 1), row.length = 6) ∧
    (∀ i, i < 2 →
      (mkB 2 10 (fun _ _ => 1)).getD i [] =
        (List.range 6).map fun j => (fun (_ _ : ℕ) => (1:ℚ)) i j * 10) ∧
    (∀ i, i < 2 →
      ((mkB 2 10 (fun _ _ => 1)).getD i [] = List.replicate 6 0 ↔
        ∀ j, j < 6 → (fun (_ _ : ℕ) => (1:ℚ)) i j = 0))) :=
  ⟨by norm_num, gaussianB_shape_and_entries 2 10 (fun _ _ => 1) (by norm_num)⟩

/- ## Surface sample constructor (`calculate_x_y_z_theta_phi`, lines 140-180)

The buffers are row-major lists over the pixel grid of H * W entries.
The numpy random draw `np.random.randint(0, W*H, (L,))` is modelled by an
explicit stream `rand : Nat -> Nat` of drawn indices. -/

inductive CalcErr where
  | shapeMismatch
  | numConvert
deriving DecidableEq

/-- mask = uvd[:, 2] != 0 (line 152). -/
def mask0 (depth : List ℚ) : List Bool :=
  depth.map fun d => decide (d ≠ 0)

/-- base = np.sum(mask) (line 158). -/
def countTrue (m : List Bool) : ℕ := m.count true

/-- mask[indices] = False (line 162): every drawn index is set to false.
A repeated or already-false index simply stays false. -/
def applyDraws (m : List Bool) (ds : List ℕ) : List Bool :=
  ds.foldl (fun acc i => acc.set i false) m

theorem exists_pow_succ_lt (q r : ℚ) (h0 : 0 ≤ q) (h1 : q < 1) (hr : 0 < r) :
    ∃ n : ℕ, q ^ (n + 1) < r := by
  obtain ⟨n, hn⟩ := exists_pow_lt_of_lt_one hr h1
  exact ⟨n, lt_of_le_of_lt (pow_le_pow_of_le_one h0 h1.le (Nat.le_succ n)) hn⟩

/-- L = int(np.log(limit/base) // np.log(1 - 1/(W*H))) (line 161), in exact
arithmetic: the least L with q ^ (L + 1) < r.  This agrees with the floor of
the quotient of logarithms, as proved in `computeL_eq_log_floor` below.
Outside the guard the caller has already failed, so the value is junk. -/
def computeL (q r : ℚ) : ℕ :=
  if h : 0 ≤ q ∧ q < 1 ∧ 0 < r then
    Nat.find (exists_pow_succ_lt q r h.1 h.2.1 h.2.2)
  else 0

/-- The number of draws used by line 161 for a given grid, depth buffer and
limit. -/
def Ldraws (H W : ℕ) (depth : List ℚ) (l : ℤ) : ℕ :=
  computeL (1 - 1 / ((H * W : ℕ) : ℚ)) ((l : ℚ) / (countTrue (mask0 depth) : ℚ))

/-- The list of drawn indices of line 162, taken from the stream rand. -/
def drawsList (H W : ℕ) (depth : List ℚ) (l : ℤ) (rand : ℕ → ℕ) : List ℕ :=
  (List.range (Ldraws H W depth l)).map rand

/-- One row of the uv grid extended with its depth: (u, v, d) at row-major
pixel p, with u = p % W and v = p / W (np.meshgrid + reshape + concatenate,
lines 149-151). -/
def uvdRaw (W : ℕ) (depth : List ℚ) (p : ℕ) : Vec3 := fun i =>
  if i = 0 then ((p % W : ℕ) : ℚ)
  else if i = 1 then ((p / W : ℕ) : ℚ)
  else depth.getD p 0

/-- uvd[:, :2] = uvd[:, :2] * uvd[:, 2:3] (line 164). -/
def scaleUV (v : Vec3) : Vec3 := fun i => if i = 2 then v 2 else v i * v 2

/-- np.linalg.inv of the 3x3 intrinsic, written with the adjugate; over a
field this coincides with the Mathlib matrix inverse. -/
def Kinv (K : Mat3) : Mat3 := K.det⁻¹ • K.adjugate

/-- One output row of x_train = np.matmul(uvd, np.matmul(c2w[:3,:3],
np.linalg.inv(K)).T) + c2w[:3, 3].T (line 165), for a single uvd row v. -/
def posRow (A : Mat3) (t : Vec3) (v : Vec3) : Vec3 :=
  fun i => Matrix.vecMul v A.transpose i + t i

/-- Row-major pixel indices that survive the mask (uvd = uvd[mask], line
163). -/
def selectedIdx (n : ℕ) (m : List Bool) : List ℕ :=
  (List.range n).filter fun p => m.getD p false

def posList (n W : ℕ) (depth : List ℚ) (A : Mat3) (t : Vec3) (m : List Bool) :
    List Vec3 :=
  (selectedIdx n m).map fun p => posRow A t (scaleUV (uvdRaw W depth p))

/-- Shallow embedding of calculate_x_y_z_theta_phi.  The label buffer is
bound by the source (line 142) but never used.  The shape test models the
np.concatenate failure when the depth buffer does not cover the pixel grid;
the numConvert error models the int(nan) / int(inf) crash of line 161 when
the limit is not positive yet smaller than base. -/
def calcXYZ (H W : ℕ) (label : List Vec3) (depth : List ℚ) (rot K : Mat3)
    (t : Vec3) (limit : Option ℤ) (rand : ℕ → ℕ) :
    Except CalcErr (List Vec3 × List Bool) :=
  if depth.length ≠ H * W then .error .shapeMismatch
  else
    match limit with
    | none =>
        .ok (posList (H * W) W depth (rot * Kinv K) t (mask0 depth), mask0 depth)
    | some l =>
        if (countTrue (mask0 depth) : ℤ) ≤ l then
          .ok (posList (H * W) W depth (rot * Kinv K) t (mask0 depth), mask0 depth)
        else if 0 < l then
          .ok (posList (H * W) W depth (rot * Kinv K) t
                (applyDraws (mask0 depth) (drawsList H W depth l rand)),
               applyDraws (mask0 depth) (drawsList H W depth l rand))
        else .error .numConvert

/- ## Basic lemmas about the constructor pieces -/

theorem getD_set_self (m : List Bool) (d : ℕ) :
    (m.set d false).getD d false = false := by
  induction m generalizing d with
  | nil => simp [List.getD]
  | cons b bs ih =>
    cases d with
    | zero => simp
    | succ k => simpa using ih k

theorem getD_set_ne (m : List Bool) (d p : ℕ) (h : p ≠ d) :
    (m.set d false).getD p false = m.getD p false := by
  induction m generalizing d p with
  | nil => simp
  | cons b bs ih =>
    cases d with
    | zero =>
      cases p with
      | zero => exact absurd rfl h
      | succ k => simp
    | succ kd =>
      cases p with
      | zero => simp
      | succ kp => simpa using ih kd kp (fun hc => h (by rw [hc]))

theorem applyDraws_length (m : List Bool) (ds : List ℕ) :
    (applyDraws m ds).length = m.length := by
  induction ds generalizing m with
  | nil => rfl
  | cons d ds ih =>
    show (applyDraws (m.set d false) ds).length = m.length
    rw [ih, List.length_set]

theorem applyDraws_getD (m : List Bool) (ds : List ℕ) (p : ℕ) :
    (applyDraws m ds).getD p false =
      if p ∈ ds then false else m.getD p false := by
  induction ds generalizing m with
  | nil => simp [applyDraws]
  | cons d ds ih =>
    show (applyDraws (m.set d false) ds).getD p false = _
    rw [ih]
    by_cases hds : p ∈ ds
    · rw [if_pos hds, if_pos (List.mem_cons_of_mem d hds)]
    · by_cases hd : p = d
      · subst hd
        rw [if_neg hds, if_pos (List.mem_cons_self p ds), getD_set_self]
      · have hnotin : p ∉ d :: ds := by
          intro hc
          rcases List.mem_cons.mp hc with h1 | h1
          · exact hd h1
          · exact hds h1
        rw [if_neg hds, if_neg hnotin, getD_set_ne m d p hd]

theorem mask0_length (depth : List ℚ) : (mask0 depth).length = depth.length := by
  simp [mask0]

theorem mask0_getD (depth : List ℚ) (p : ℕ) (hp : p < depth.length) :
    (mask0 depth).getD p false = decide (depth.getD p 0 ≠ 0) := by
  simp [mask0, List.getD_eq_getElem?_getD, List.getElem?_map,
    List.getElem?_eq_getElem hp]

theorem mask0_true_imp (depth : List ℚ) (p : ℕ)
    (h : (mask0 depth).getD p false = true) : depth.getD p 0 ≠ 0 := by
  by_cases hp : p < depth.length
  · rw [mask0_getD depth p hp] at h
    simpa using h
  · rw [List.getD_eq_default] at h
    · exact absurd h (by simp)
    · rw [mask0_length]
      omega

theorem selectedIdx_cons (b : Bool) (bs : List Bool) :
    selectedIdx (bs.length + 1) (b :: bs)
      = (if b then [0] else []) ++ (selectedIdx bs.length bs).map Nat.succ := by
  have hcomp : ((fun p => (b :: bs).getD p false) ∘ Nat.succ) =
      fun p => bs.getD p false := by
    funext p
    simp
  simp only [selectedIdx, List.range_succ_eq_map, List.filter_cons,
    List.filter_map, hcomp, List.getD_cons_zero]
  cases b
  · simp
  · simp

theorem countTrue_eq_length_selected (m : List Bool) :
    countTrue m = (selectedIdx m.length m).length := by
  induction m with
  | nil => rfl
  | cons b bs ih =>
    show List.count true (b :: bs) = (selectedIdx (bs.length + 1) (b :: bs)).length
    rw [List.count_cons, selectedIdx_cons]
    have hc : List.count true bs = (selectedIdx bs.length bs).length := ih
    cases b <;> simp [hc, Nat.add_comm]

theorem length_filter_range (n : ℕ) (P : ℕ → Bool) :
    ((List.range n).filter P).length =
      ∑ p ∈ Finset.range n, if P p then 1 else 0 := by
  induction n with
  | zero => rfl
  | succ k ih =>
    rw [List.range_succ, List.filter_append, List.length_append,
      Finset.sum_range_succ, ih]
    by_cases hk : P k <;> simp [hk]

/- ## Relating the embedding to the formulas of the specification -/

theorem Kinv_eq_inv (K : Mat3) : Kinv K = K⁻¹ := by
  rw [Matrix.inv_def, Ring.inverse_eq_inv]
  rfl

/-- The camera-space point of the specification: (u*d, v*d, d) at row-major
pixel p. -/
def pointCamSpec (W : ℕ) (depth : List ℚ) (p : ℕ) : Vec3 := fun i =>
  if i = 0 then ((p % W : ℕ) : ℚ) * depth.getD p 0
  else if i = 1 then ((p / W : ℕ) : ℚ) * depth.getD p 0
  else depth.getD p 0

/-- The unprojection formula of the specification: R * Kinverse * point_cam
+ t, stated with the Mathlib matrix inverse. -/
noncomputable def unprojSpec (rot K : Mat3) (t : Vec3) (v : Vec3) : Vec3 :=
  fun i => (rot * K⁻¹).mulVec v i + t i

theorem scaleUV_uvdRaw (W : ℕ) (depth : List ℚ) (p : ℕ) :
    scaleUV (uvdRaw W depth p) = pointCamSpec W depth p := by
  funext i
  fin_cases i <;> simp [scaleUV, uvdRaw, pointCamSpec, Fin.ext_iff]

theorem calcXYZ_ok_inv {H W : ℕ} {label : List Vec3} {depth : List ℚ}
    {rot K : Mat3} {t : Vec3} {limit : Option ℤ} {rand : ℕ → ℕ}
    {ps : List Vec3} {m : List Bool}
    (hok : calcXYZ H W label depth rot K t limit rand = .ok (ps, m)) :
    depth.length = H * W ∧
    ps = posList (H * W) W depth (rot * Kinv K) t m ∧
    m.length = H * W ∧
    (∀ p, m.getD p false = true → (mask0 depth).getD p false = true) := by
  unfold calcXYZ at hok
  by_cases hd : depth.length ≠ H * W
  · rw [if_pos hd] at hok
    exact absurd hok (by simp)
  · rw [if_neg hd] at hok
    push_neg at hd
    have hlen : (mask0 depth).length = H * W := by rw [mask0_length, hd]
    cases limit with
    | none =>
      dsimp only at hok
      injection hok with h
      injection h with ha hb
      subst ha
      subst hb
      exact ⟨hd, rfl, hlen, fun _ h => h⟩
    | some l =>
      dsimp only at hok
      by_cases h1 : (countTrue (mask0 depth) : ℤ) ≤ l
      · rw [if_pos h1] at hok
        injection hok with h
        injection h with ha hb
        subst ha
        subst hb
        exact ⟨hd, rfl, hlen, fun _ h => h⟩
      · rw [if_neg h1] at hok
        by_cases h2 : (0 : ℤ) < l
        · rw [if_pos h2] at hok
          injection hok with h
          injection h with ha hb
          subst ha
          subst hb
          refine ⟨hd, rfl, by rw [applyDraws_length, hlen], ?_⟩
          intro p hp
          rw [applyDraws_getD] at hp
          by_cases hin : p ∈ drawsList H W depth l rand
          · rw [if_pos hin] at hp
            exact absurd hp (by simp)
          · rwa [if_neg hin] at hp
        · rw [if_neg h2] at hok
          exact absurd hok (by simp)

/- ## Direction layer (lines 169-171), over the reals -/

noncomputable def normSqR (v : Vec3) : ℝ := ∑ i, ((v i : ℝ)) ^ 2

/-- dirs = x_train - c2w[:3, 3].T; dirs = dirs / np.linalg.norm(dirs,
axis=1, keepdims=True) (lines 169-170). -/
noncomputable def dirsOf (ps : List Vec3) (t : Vec3) : List (Fin 3 → ℝ) :=
  ps.map fun p => fun i =>
    ((p i - t i : ℚ) : ℝ) / Real.sqrt (normSqR fun j => p j - t j)

/-- The normalisation of the specification. -/
noncomputable def normalizeSpec (v : Fin 3 → ℝ) : Fin 3 → ℝ :=
  fun i => v i / Real.sqrt (∑ j, v j ^ 2)

/-- Constant stream of draws, used as a concrete random source. -/
def rand0 : ℕ → ℕ := fun _ => 0

/-- Claim C2: every retained pixel of build_samples is unprojected by
point_world = R * Kinverse * (u*d, v*d, d) + t, with R and t the rotation
and translation parts of the camera-to-world pose and K the intrinsic
matrix; the code computes this with a transposed right-multiplication,
which is proved here to agree with the formula of the specification. -/
theorem positions_unproject (H W : ℕ) (label : List Vec3) (depth : List ℚ)
    (rot K : Mat3) (t : Vec3) (limit : Option ℤ) (rand : ℕ → ℕ)
    (ps : List Vec3) (m : List Bool) (hK : K.det ≠ 0)
    (hok : calcXYZ H W label depth rot K t limit rand = .ok (ps, m)) :
    ps = (selectedIdx (H * W) m).map fun p =>
      unprojSpec rot K t (pointCamSpec W depth p) := by
  obtain ⟨-, hps, -, -⟩ := calcXYZ_ok_inv hok
  rw [hps]
  unfold posList
  have hfun : ∀ p : ℕ,
      posRow (rot * Kinv K) t (scaleUV (uvdRaw W depth p)) =
        unprojSpec rot K t (pointCamSpec W depth p) := by
    intro p
    rw [scaleUV_uvdRaw]
    funext i
    show Matrix.vecMul _ (rot * Kinv K).transpose i + t i = _
    rw [Matrix.vecMul_transpose, Kinv_eq_inv]
    rfl
  simp only [hfun]

theorem positions_unproject_witness :
    ((1 : Mat3).det ≠ 0) ∧
    (calcXYZ 1 1 [] [1] 1 1 vZero none rand0 =
      .ok (posList (1 * 1) 1 [1] (1 * Kinv 1) vZero (mask0 [1]), mask0 [1])) ∧
    (posList (1 * 1) 1 [1] (1 * Kinv 1) vZero (mask0 [1]) =
      (selectedIdx (1 * 1) (mask0 [1])).map fun p =>
        unprojSpec 1 1 vZero (pointCamSpec 1 [1] p)) := by
  have h1 : (1 : Mat3).det ≠ 0 := by
    rw [Matrix.det_one]
    exact one_ne_zero
  have h2 : calcXYZ 1 1 [] [1] 1 1 vZero none rand0 =
      .ok (posList (1 * 1) 1 [1] (1 * Kinv 1) vZero (mask0 [1]), mask0 [1]) := rfl
  exact ⟨h1, h2, positions_unproject 1 1 [] [1] 1 1 vZero none rand0 _ _ h1 h2⟩

/-- Claim C7 counterexample: a call with a color buffer of 2 rows against a
depth buffer of 1 entry (a dimension mismatch), and with the non-positive
limit 0 provided, neither fails with a shape error nor rejects the limit:
it returns a successful, empty sample.  The code never consults the color
buffer and only compares the valid-pixel count with the limit. -/
theorem calc_no_validation_counterexample :
    calcXYZ 1 1 [vZero, vZero] [0] 1 1 vZero (some 0) rand0 =
      .ok ([], [false]) := rfl

/-- Claim C7 (amended): build_samples performs no explicit validation.  It
fails with a shape error exactly when the depth buffer length differs from
the H*W pixel grid - the color buffer is never consulted, so a color/depth
mismatch alone raises nothing - and a non-positive limit is not rejected:
it leads to a numeric-conversion failure only when the valid-pixel count
exceeds the limit, and is otherwise accepted. -/
theorem calc_validation_behavior (H W : ℕ) (label : List Vec3)
    (depth : List ℚ) (rot K : Mat3) (t : Vec3) (rand : ℕ → ℕ) :
    (∀ limit, depth.length ≠ H * W →
      calcXYZ H W label depth rot K t limit rand = .error .shapeMismatch) ∧
    (∀ l : ℤ, depth.length = H * W → l ≤ 0 →
      l < (countTrue (mask0 depth) : ℤ) →
      calcXYZ H W label depth rot K t (some l) rand = .error .numConvert) ∧
    (∀ l : ℤ, depth.length = H * W →
      ((countTrue (mask0 depth) : ℤ) ≤ l ∨ 0 < l) →
      ∃ out, calcXYZ H W label depth rot K t (some l) rand = .ok out) ∧
    (depth.length = H * W →
      ∃ out, calcXYZ H W label depth rot K t none rand = .ok out) ∧
    (∀ label2 limit,
      calcXYZ H W label2 depth rot K t limit rand =
        calcXYZ H W label depth rot K t limit rand) := by
  refine ⟨?_, ?_, ?_, ?_, ?_⟩
  · intro limit hne
    unfold calcXYZ
    rw [if_pos hne]
  · intro l hd hle hlt
    unfold calcXYZ
    rw [if_neg (by omega)]
    dsimp only
    rw [if_neg (by omega), if_neg (by omega)]
  · intro l hd hcase
    unfold calcXYZ
    rw [if_neg (by omega)]
    dsimp only
    by_cases h1 : (countTrue (mask0 depth) : ℤ) ≤ l
    · rw [if_pos h1]
      exact ⟨_, rfl⟩
    · have h2 : (0 : ℤ) < l := by
        rcases hcase with h | h
        · exact absurd h h1
        · exact h
      rw [if_neg h1, if_pos h2]
      exact ⟨_, rfl⟩
  · intro hd
    unfold calcXYZ
    rw [if_neg (by omega)]
    dsimp only
    exact ⟨_, rfl⟩
  · intro label2 limit
    rfl

theorem calc_validation_behavior_witness :
    (calcXYZ 1 1 [] [0, 0] 1 1 vZero none rand0 = .error .shapeMismatch) ∧
    (calcXYZ 1 1 [] [1] 1 1 vZero (some (-1)) rand0 = .error .numConvert) ∧
    (∃ out, calcXYZ 1 1 [] [1] 1 1 vZero (some 2) rand0 = .ok out) ∧
    (∃ out, calcXYZ 1 1 [] [1] 1 1 vZero none rand0 = .ok out) := by
  refine ⟨?_, ?_, ?_, ?_⟩
  · exact (calc_validation_behavior 1 1 [] [0, 0] 1 1 vZero rand0).1 none
      (by decide)
  · exact (calc_validation_behavior 1 1 [] [1] 1 1 vZero rand0).2.1 (-1)
      (by decide) (by decide) (by decide)
  · exact (calc_validation_behavior 1 1 [] [1] 1 1 vZero rand0).2.2.1 2
      (by decide) (Or.inl (by decide))
  · exact (calc_validation_behavior 1 1 [] [1] 1 1 vZero rand0).2.2.2.1
      (by decide)

/- ## The draw count agrees with the floor of the log quotient -/

theorem computeL_spec (q r : ℚ) (h0 : 0 ≤ q) (h1 : q < 1) (hr0 : 0 < r)
    (hr1 : r < 1) :
    q ^ (computeL q r + 1) < r ∧ r ≤ q ^ computeL q r := by
  have hg : 0 ≤ q ∧ q < 1 ∧ 0 < r := ⟨h0, h1, hr0⟩
  rw [computeL, dif_pos hg]
  refine ⟨Nat.find_spec (exists_pow_succ_lt q r hg.1 hg.2.1 hg.2.2), ?_⟩
  rcases Nat.eq_zero_or_pos (Nat.find (exists_pow_succ_lt q r hg.1 hg.2.1 hg.2.2))
    with h | h
  · rw [h, pow_zero]
    exact hr1.le
  · have hlt : Nat.find (exists_pow_succ_lt q r hg.1 hg.2.1 hg.2.2) - 1 <
        Nat.find (exists_pow_succ_lt q r hg.1 hg.2.1 hg.2.2) := by omega
    have hmin := Nat.find_min (exists_pow_succ_lt q r hg.1 hg.2.1 hg.2.2) hlt
    have heq : Nat.find (exists_pow_succ_lt q r hg.1 hg.2.1 hg.2.2) - 1 + 1 =
        Nat.find (exists_pow_succ_lt q r hg.1 hg.2.1 hg.2.2) := by omega
    rw [heq] at hmin
    exact not_lt.mp hmin

theorem computeL_eq_log_floor (q r : ℚ) (hq0 : 0 < q) (hq1 : q < 1)
    (hr0 : 0 < r) (hr1 : r < 1) :
    (computeL q r : ℤ) = ⌊Real.log (r : ℝ) / Real.log (q : ℝ)⌋ := by
  obtain ⟨hlt, hle⟩ := computeL_spec q r hq0.le hq1 hr0 hr1
  have hq0R : (0 : ℝ) < (q : ℝ) := by exact_mod_cast hq0
  have hq1R : (q : ℝ) < 1 := by exact_mod_cast hq1
  have hr0R : (0 : ℝ) < (r : ℝ) := by exact_mod_cast hr0
  have hlogq : Real.log (q : ℝ) < 0 := Real.log_neg hq0R hq1R
  have hlow : ((computeL q r : ℕ) : ℝ) ≤ Real.log (r : ℝ) / Real.log (q : ℝ) := by
    rw [le_div_iff_of_neg hlogq]
    have h2 : (r : ℝ) ≤ (q : ℝ) ^ computeL q r := by exact_mod_cast hle
    have h3 := (Real.log_le_log_iff hr0R (pow_pos hq0R _)).mpr h2
    rwa [Real.log_pow] at h3
  have hhigh : Real.log (r : ℝ) / Real.log (q : ℝ) < ((computeL q r : ℕ) : ℝ) + 1 := by
    rw [div_lt_iff_of_neg hlogq]
    have h2 : (q : ℝ) ^ (computeL q r + 1) < (r : ℝ) := by exact_mod_cast hlt
    have h3 := Real.log_lt_log (pow_pos hq0R _) h2
    rw [Real.log_pow] at h3
    push_cast at h3 ⊢
    linarith
  symm
  rw [Int.floor_eq_iff]
  refine ⟨by push_cast; exact hlow, by push_cast; exact hhigh⟩

/-- Claim C1: when a limit is provided and the valid-pixel count base
exceeds it, the constructor computes exactly
L = floor(log(limit/base) / log(1 - 1/(H*W))), draws L indices from the
random stream, and sets the validity mask to false at each drawn index
(repeated indices leave an already-false entry false, all other entries
are unchanged); when the limit is absent, or base does not exceed it, the
mask is left untouched. -/
theorem subsample_mask (H W : ℕ) (label : List Vec3) (depth : List ℚ)
    (rot K : Mat3) (t : Vec3) (rand : ℕ → ℕ) (l : ℤ)
    (hd : depth.length = H * W) (hrand : ∀ k, rand k < H * W) :
    (calcXYZ H W label depth rot K t none rand =
      .ok (posList (H * W) W depth (rot * Kinv K) t (mask0 depth),
           mask0 depth)) ∧
    ((countTrue (mask0 depth) : ℤ) ≤ l →
      calcXYZ H W label depth rot K t (some l) rand =
        .ok (posList (H * W) W depth (rot * Kinv K) t (mask0 depth),
             mask0 depth)) ∧
    (0 < l → l < (countTrue (mask0 depth) : ℤ) →
      (calcXYZ H W label depth rot K t (some l) rand =
        .ok (posList (H * W) W depth (rot * Kinv K) t
              (applyDraws (mask0 depth) (drawsList H W depth l rand)),
             applyDraws (mask0 depth) (drawsList H W depth l rand))) ∧
      ((Ldraws H W depth l : ℤ) =
        ⌊Real.log ((l : ℝ) / (countTrue (mask0 depth) : ℝ)) /
          Real.log (1 - 1 / (((H : ℕ) : ℝ) * ((W : ℕ) : ℝ)))⌋) ∧
      (∀ p, (applyDraws (mask0 depth) (drawsList H W depth l rand)).getD p false =
        if p ∈ drawsList H W depth l rand then false
        else (mask0 depth).getD p false)) := by
  have hd2 : ¬ depth.length ≠ H * W := by omega
  refine ⟨?_, ?_, ?_⟩
  · unfold calcXYZ
    rw [if_neg hd2]
  · intro hle
    unfold calcXYZ
    rw [if_neg hd2]
    dsimp only
    rw [if_pos hle]
  · intro h0 hlt
    have hbase : (2 : ℕ) ≤ countTrue (mask0 depth) := by omega
    have hn : (2 : ℕ) ≤ H * W := by
      have h1 : countTrue (mask0 depth) ≤ (mask0 depth).length :=
        List.count_le_length true (mask0 depth)
      rw [mask0_length, hd] at h1
      omega
    refine ⟨?_, ?_, fun p => applyDraws_getD _ _ p⟩
    · unfold calcXYZ
      rw [if_neg hd2]
      dsimp only
      rw [if_neg (by omega), if_pos h0]
    · have hnQ : (2 : ℚ) ≤ ((H * W : ℕ) : ℚ) := by exact_mod_cast hn
      have hq0 : (0 : ℚ) < 1 - 1 / ((H * W : ℕ) : ℚ) := by
        have : 1 / ((H * W : ℕ) : ℚ) ≤ 1 / 2 :=
          one_div_le_one_div_of_le (by norm_num) hnQ
        linarith
      have hq1 : (1 - 1 / ((H * W : ℕ) : ℚ)) < 1 := by
        have : (0 : ℚ) < 1 / ((H * W : ℕ) : ℚ) :=
          one_div_pos.mpr (by linarith)
        linarith
      have hbQ : (0 : ℚ) < (countTrue (mask0 depth) : ℚ) := by
        exact_mod_cast (by omega : (0 : ℕ) < countTrue (mask0 depth))
      have hlQ : (0 : ℚ) < (l : ℚ) := by exact_mod_cast h0
      have hltQ : (l : ℚ) < (countTrue (mask0 depth) : ℚ) := by
        exact_mod_cast hlt
      have hr0 : (0 : ℚ) < (l : ℚ) / (countTrue (mask0 depth) : ℚ) :=
        div_pos hlQ hbQ
      have hr1 : (l : ℚ) / (countTrue (mask0 depth) : ℚ) < 1 :=
        (div_lt_one hbQ).mpr hltQ
      have hfloor := computeL_eq_log_floor _ _ hq0 hq1 hr0 hr1
      have hqcast : ((1 - 1 / ((H * W : ℕ) : ℚ) : ℚ) : ℝ) =
          1 - 1 / (((H : ℕ) : ℝ) * ((W : ℕ) : ℝ)) := by
        push_cast
        ring
      have hrcast : (((l : ℚ) / (countTrue (mask0 depth) : ℚ) : ℚ) : ℝ) =
          (l : ℝ) / (countTrue (mask0 depth) : ℝ) := by
        push_cast
        ring
      rw [Ldraws, hfloor, hqcast, hrcast]

theorem subsample_mask_witness :
    (([1, 1] : List ℚ).length = 1 * 2) ∧
    ((0 : ℤ) < 1) ∧ ((1 : ℤ) < (countTrue (mask0 ([1, 1] : List ℚ)) : ℤ)) ∧
    ((calcXYZ 1 2 [] [1, 1] 1 1 vZero (some 1) rand0 =
      .ok (posList (1 * 2) 2 [1, 1] (1 * Kinv 1) vZero
            (applyDraws (mask0 [1, 1]) (drawsList 1 2 [1, 1] 1 rand0)),
           applyDraws (mask0 [1, 1]) (drawsList 1 2 [1, 1] 1 rand0))) ∧
      ((Ldraws 1 2 [1, 1] 1 : ℤ) =
        ⌊Real.log (((1 : ℤ) : ℝ) / (countTrue (mask0 ([1, 1] : List ℚ)) : ℝ)) /
          Real.log (1 - 1 / (((1 : ℕ) : ℝ) * ((2 : ℕ) : ℝ)))⌋) ∧
      (∀ p, (applyDraws (mask0 [1, 1]) (drawsList 1 2 [1, 1] 1 rand0)).getD p false =
        if p ∈ drawsList 1 2 [1, 1] 1 rand0 then false
        else (mask0 [1, 1]).getD p false)) :=
  ⟨by decide, by decide, by decide,
   (subsample_mask 1 2 [] [1, 1] 1 1 vZero rand0 1 (by decide)
      (fun _ => by simp [rand0])).2.2 (by decide) (by decide)⟩

/- ## Claim C3: directions -/

/-- Claim C3: for every valid pixel the stored direction equals
normalize(position - camera_origin), where the camera origin is the
translation column of the pose, and every stored direction has unit norm
(in particular within the stated floating tolerance of 1e-5).  The
invertibility hypothesis reflects that np.linalg.inv(K) must exist and the
pose rotation be nonsingular, which makes the unprojected point of a pixel
with nonzero depth distinct from the camera origin. -/
theorem directions_normalized (H W : ℕ) (label : List Vec3) (depth : List ℚ)
    (rot K : Mat3) (t : Vec3) (limit : Option ℤ) (rand : ℕ → ℕ)
    (ps : List Vec3) (m : List Bool)
    (hdet : (rot * Kinv K).det ≠ 0)
    (hok : calcXYZ H W label depth rot K t limit rand = .ok (ps, m)) :
    (dirsOf ps t).length = ps.length ∧
    ∀ (k : ℕ) (p : Vec3), ps[k]? = some p →
      (dirsOf ps t)[k]? = some (normalizeSpec fun i => ((p i - t i : ℚ) : ℝ)) ∧
      (∑ i, (normalizeSpec fun i => ((p i - t i : ℚ) : ℝ)) i ^ 2) = 1 ∧
      |Real.sqrt (∑ i, (normalizeSpec fun i => ((p i - t i : ℚ) : ℝ)) i ^ 2) - 1|
        ≤ 1 / 100000 := by
  obtain ⟨-, hps, -, hmask⟩ := calcXYZ_ok_inv hok
  refine ⟨by simp [dirsOf], ?_⟩
  intro k p hk
  have hmem : p ∈ ps := by
    rcases List.getElem?_eq_some.mp hk with ⟨hn, rfl⟩
    exact List.getElem_mem hn
  rw [hps] at hmem
  unfold posList at hmem
  obtain ⟨q, hqmem, hqe⟩ := List.mem_map.mp hmem
  unfold selectedIdx at hqmem
  have hqtrue : m.getD q false = true := (List.mem_filter.mp hqmem).2
  have hdq : depth.getD q 0 ≠ 0 := mask0_true_imp depth q (hmask q hqtrue)
  have hAu : IsUnit (rot * Kinv K).det := isUnit_iff_ne_zero.mpr hdet
  have hpw : ∀ i, p i - t i =
      (rot * Kinv K).mulVec (scaleUV (uvdRaw W depth q)) i := by
    intro i
    rw [← hqe]
    show posRow _ t _ i - t i = _
    unfold posRow
    rw [Matrix.vecMul_transpose]
    ring
  have hvcam2 : scaleUV (uvdRaw W depth q) 2 = depth.getD q 0 := by
    simp [scaleUV, uvdRaw]
  have hwne : ∃ i, p i - t i ≠ 0 := by
    by_contra hc
    push_neg at hc
    have hzero : (rot * Kinv K).mulVec (scaleUV (uvdRaw W depth q)) = 0 := by
      funext i
      rw [← hpw i, hc i]
      rfl
    have hv0 : scaleUV (uvdRaw W depth q) = 0 := by
      have h1 : ((rot * Kinv K)⁻¹ * (rot * Kinv K)).mulVec
          (scaleUV (uvdRaw W depth q)) = (rot * Kinv K)⁻¹.mulVec 0 := by
        rw [← Matrix.mulVec_mulVec, hzero]
      rwa [Matrix.nonsing_inv_mul _ hAu, Matrix.one_mulVec,
        Matrix.mulVec_zero] at h1
    apply hdq
    rw [← hvcam2, hv0]
    rfl
  have hS_nonneg : (0 : ℝ) ≤ ∑ i, ((p i - t i : ℚ) : ℝ) ^ 2 :=
    Finset.sum_nonneg fun i _ => sq_nonneg _
  have hS_pos : (0 : ℝ) < ∑ i, ((p i - t i : ℚ) : ℝ) ^ 2 := by
    obtain ⟨i0, hi0⟩ := hwne
    refine Finset.sum_pos' (fun i _ => sq_nonneg _)
      ⟨i0, Finset.mem_univ i0, ?_⟩
    have hne : ((p i0 - t i0 : ℚ) : ℝ) ≠ 0 := by
      exact_mod_cast hi0
    exact lt_of_le_of_ne (sq_nonneg _) (Ne.symm (pow_ne_zero 2 hne))
  have hsum : (∑ i, (normalizeSpec fun i => ((p i - t i : ℚ) : ℝ)) i ^ 2) = 1 := by
    unfold normalizeSpec
    simp only [div_pow]
    rw [Real.sq_sqrt hS_nonneg, ← Finset.sum_div, div_self (ne_of_gt hS_pos)]
  refine ⟨?_, hsum, ?_⟩
  · unfold dirsOf
    rw [List.getElem?_map, hk]
    rfl
  · rw [hsum, Real.sqrt_one]
    norm_num

theorem directions_normalized_witness :
    ((1 * Kinv (1 : Mat3)).det ≠ 0) ∧
    (calcXYZ 1 1 [] [1] 1 1 vZero none rand0 =
      .ok (posList (1 * 1) 1 [1] (1 * Kinv 1) vZero (mask0 [1]), mask0 [1])) ∧
    ((dirsOf (posList (1 * 1) 1 [1] (1 * Kinv 1) vZero (mask0 [1])) vZero).length =
      (posList (1 * 1) 1 [1] (1 * Kinv 1) vZero (mask0 [1])).length) := by
  have hK1 : Kinv (1 : Mat3) = 1 := by
    rw [Kinv, Matrix.det_one, Matrix.adjugate_one, inv_one, one_smul]
  have h1 : (1 * Kinv (1 : Mat3)).det ≠ 0 := by
    rw [hK1, mul_one, Matrix.det_one]
    exact one_ne_zero
  have h2 : calcXYZ 1 1 [] [1] 1 1 vZero none rand0 =
      .ok (posList (1 * 1) 1 [1] (1 * Kinv 1) vZero (mask0 [1]), mask0 [1]) := rfl
  exact ⟨h1, h2,
    (directions_normalized 1 1 [] [1] 1 1 vZero none rand0 _ _ h1 h2).1⟩

/- ## Dataset assembly and __getitem__ (lines 10-36, 185-189)

String identifiers of the source are modelled by opaque natural tokens;
the per-identifier dictionaries become total functions on tokens. -/

structure Dataset where
  datadir : ℕ
  list_ids : List ℕ
  list_images : ℕ → ℕ
  list_poses : ℕ → Mat4
  list_Ks : ℕ → Mat3
  labels : ℕ → List Vec3
  depths : ℕ → List ℚ
  limit : Option ℤ
  x_trains : ℕ → List (Fin 6 → ℝ)
  masks : ℕ → List Bool
  H : ℕ
  W : ℕ

/-- Numpy boolean indexing label[mask]: keeps the rows at true positions,
in order; raises (none) when the mask length disagrees with the array. -/
def maskedSelect (xs : List Vec3) (m : List Bool) : Option (List Vec3) :=
  if xs.length = m.length then
    some (((xs.zip m).filter fun pr => pr.2).map fun pr => pr.1)
  else none

/-- Shallow embedding of __getitem__ with explicit state threading: the
returned dataset is the component holding any field updates (the source
performs none). -/
def getItem (d : Dataset) (index : ℕ) :
    Dataset × Option (List (Fin 6 → ℝ) × List Vec3 × List Bool) :=
  (d, match d.list_ids[index]? with
      | none => none
      | some id =>
        match maskedSelect (d.labels id) (d.masks id) with
        | none => none
        | some sel => some (d.x_trains id, sel, d.masks id))

theorem zip_filter_eq_selected (xs : List Vec3) (m : List Bool)
    (h : xs.length = m.length) :
    ((xs.zip m).filter fun pr => pr.2).map (fun pr => pr.1) =
      (selectedIdx m.length m).map fun p => xs.getD p vZero := by
  induction xs generalizing m with
  | nil =>
    cases m with
    | nil => rfl
    | cons b bs => exact absurd h (by simp)
  | cons x xs ih =>
    cases m with
    | nil => exact absurd h (by simp)
    | cons b bs =>
      have hlen : xs.length = bs.length := by simpa using h
      have hmapmap : ((selectedIdx bs.length bs).map Nat.succ).map
          (fun p => (x :: xs).getD p vZero) =
          (selectedIdx bs.length bs).map fun p => xs.getD p vZero := by
        rw [List.map_map]
        exact List.map_congr_left fun p _ => by simp
      rw [List.zip_cons_cons]
      rw [show (b :: bs).length = bs.length + 1 from rfl, selectedIdx_cons,
        List.map_append, hmapmap]
      cases b
      · simpa using ih bs hlen
      · simpa using ih bs hlen

/-- Claim C4: pixels with zero depth are masked out and excluded from the
selected index set that builds positions, directions and labels; the
position and direction lists both have exactly count(mask) entries; and
__getitem__ returns as labels exactly the color buffer rows selected by
the same row-major mask. -/
theorem mask_alignment (H W : ℕ) (label : List Vec3) (depth : List ℚ)
    (rot K : Mat3) (t : Vec3) (limit : Option ℤ) (rand : ℕ → ℕ)
    (ps : List Vec3) (m : List Bool) (d : Dataset) (i id : ℕ)
    (hok : calcXYZ H W label depth rot K t limit rand = .ok (ps, m))
    (hlab : label.length = H * W)
    (hid : d.list_ids[i]? = some id)
    (hdl : d.labels id = label) (hdm : d.masks id = m) :
    (∀ p, depth.getD p 0 = 0 → m.getD p false = false) ∧
    (∀ p, depth.getD p 0 = 0 → p ∉ selectedIdx (H * W) m) ∧
    ps.length = countTrue m ∧
    (dirsOf ps t).length = countTrue m ∧
    (getItem d i).2 = some (d.x_trains id,
      (selectedIdx (H * W) m).map (fun p => label.getD p vZero), m) := by
  obtain ⟨hd, hps, hmlen, hmask⟩ := calcXYZ_ok_inv hok
  have hzero : ∀ p, depth.getD p 0 = 0 → m.getD p false = false := by
    intro p hp
    cases hmp : m.getD p false with
    | false => rfl
    | true => exact absurd hp (mask0_true_imp depth p (hmask p hmp))
  have hlen3 : ps.length = countTrue m := by
    rw [hps]
    unfold posList
    rw [List.length_map, countTrue_eq_length_selected m, hmlen]
  refine ⟨hzero, ?_, hlen3, ?_, ?_⟩
  · intro p hp hmem
    unfold selectedIdx at hmem
    have := (List.mem_filter.mp hmem).2
    exact absurd hp (mask0_true_imp depth p (hmask p this))
  · unfold dirsOf
    rw [List.length_map]
    exact hlen3
  · unfold getItem
    rw [hid]
    dsimp only
    rw [hdl, hdm]
    have hlm : label.length = m.length := by rw [hlab, hmlen]
    unfold maskedSelect
    rw [if_pos hlm, zip_filter_eq_selected label m hlm, hmlen]

def sampleDataset : Dataset where
  datadir := 0
  list_ids := [7]
  list_images := fun _ => 0
  list_poses := fun _ => 1
  list_Ks := fun _ => 1
  labels := fun _ => [vZero]
  depths := fun _ => [1]
  limit := none
  x_trains := fun _ => []
  masks := fun _ => mask0 [1]
  H := 1
  W := 1

theorem mask_alignment_witness :
    (calcXYZ 1 1 [vZero] [1] 1 1 vZero none rand0 =
      .ok (posList (1 * 1) 1 [1] (1 * Kinv 1) vZero (mask0 [1]), mask0 [1])) ∧
    (([vZero] : List Vec3).length = 1 * 1) ∧
    (sampleDataset.list_ids[0]? = some 7) ∧
    (sampleDataset.labels 7 = [vZero]) ∧
    (sampleDataset.masks 7 = mask0 [1]) ∧
    ((∀ p, ([1] : List ℚ).getD p 0 = 0 → (mask0 [1]).getD p false = false) ∧
     (∀ p, ([1] : List ℚ).getD p 0 = 0 → p ∉ selectedIdx (1 * 1) (mask0 [1])) ∧
     (posList (1 * 1) 1 [1] (1 * Kinv 1) vZero (mask0 [1])).length =
       countTrue (mask0 [1]) ∧
     (dirsOf (posList (1 * 1) 1 [1] (1 * Kinv 1) vZero (mask0 [1])) vZero).length =
       countTrue (mask0 [1]) ∧
     (getItem sampleDataset 0).2 = some (sampleDataset.x_trains 7,
       (selectedIdx (1 * 1) (mask0 [1])).map (fun p => ([vZero] : List Vec3).getD p vZero),
       mask0 [1])) :=
  ⟨rfl, rfl, rfl, rfl, rfl,
   mask_alignment 1 1 [vZero] [1] 1 1 vZero none rand0 _ _ sampleDataset 0 7
     rfl rfl rfl rfl rfl⟩

/-- Claim C10: after construction __getitem__ is pure and deterministic:
it leaves every field of the dataset unchanged, a repeated call at the
same in-range index returns the identical triple, and the result depends
only on the cached per-identifier artifacts it reads (the identifier
list, the feature cache, the label cache and the mask cache). -/
theorem getitem_pure (d : Dataset) (i : ℕ) (hi : i < d.list_ids.length) :
    (getItem d i).1 = d ∧
    (getItem ((getItem d i).1) i).2 = (getItem d i).2 ∧
    (∀ d2 : Dataset, d2.list_ids = d.list_ids → d2.x_trains = d.x_trains →
      d2.labels = d.labels → d2.masks = d.masks →
      (getItem d2 i).2 = (getItem d i).2) := by
  refine ⟨rfl, rfl, ?_⟩
  intro d2 h1 h2 h3 h4
  unfold getItem
  simp only [h1, h2, h3, h4]

theorem getitem_pure_witness :
    (0 < sampleDataset.list_ids.length) ∧
    ((getItem sampleDataset 0).1 = sampleDataset ∧
     (getItem ((getItem sampleDataset 0).1) 0).2 = (getItem sampleDataset 0).2 ∧
     (∀ d2 : Dataset, d2.list_ids = sampleDataset.list_ids →
       d2.x_trains = sampleDataset.x_trains →
       d2.labels = sampleDataset.labels → d2.masks = sampleDataset.masks →
       (getItem d2 0).2 = (getItem sampleDataset 0).2)) :=
  ⟨by simp [sampleDataset], getitem_pure sampleDataset 0 (by simp [sampleDataset])⟩

/- ## Label loading pipeline (lines 118-124)

The source normalizes to [0,1] first (line 121) and resizes afterwards
when the native resolution differs (lines 122-123); the specification
lists resize before normalize.  The resize itself is delegated by the
source to cv2.resize with INTER_LINEAR, which is outside this repository,
so it is modelled here from the words of the specification as bilinear
interpolation with half-pixel centers and border clamping, one color
channel at a time. -/

def clampIdx (n : ℕ) (i : ℤ) : ℕ := (min (max i 0) ((n : ℤ) - 1)).toNat

/-- Modelled from the spec: resize to target resolution with linear
interpolation (the cv2.resize INTER_LINEAR collaborator is not part of
this repository).  Destination pixel (y, x) samples the source at the
half-pixel-aligned coordinates, blending the four clamped neighbours. -/
def resizeLinear (Hs Ws Hd Wd : ℕ) (img : ℕ → ℕ → ℚ) : ℕ → ℕ → ℚ :=
  fun y x =>
    let sx : ℚ := ((x : ℚ) + 1 / 2) * ((Ws : ℚ) / (Wd : ℚ)) - 1 / 2
    let sy : ℚ := ((y : ℚ) + 1 / 2) * ((Hs : ℚ) / (Hd : ℚ)) - 1 / 2
    let x0 : ℤ := ⌊sx⌋
    let y0 : ℤ := ⌊sy⌋
    let fx : ℚ := sx - x0
    let fy : ℚ := sy - y0
    (1 - fy) * ((1 - fx) * img (clampIdx Hs y0) (clampIdx Ws x0) +
        fx * img (clampIdx Hs y0) (clampIdx Ws (x0 + 1))) +
      fy * ((1 - fx) * img (clampIdx Hs (y0 + 1)) (clampIdx Ws x0) +
        fx * img (clampIdx Hs (y0 + 1)) (clampIdx Ws (x0 + 1)))

/-- I = (np.array(I) / 255.) of line 121, per channel. -/
def normalize255 (img : ℕ → ℕ → ℚ) : ℕ → ℕ → ℚ := fun y x => img y x / 255

/-- The order of operations of the source, lines 120-123: normalize first,
then resize when the native resolution (Hs, Ws) differs from the target
(Hd, Wd). -/
def loadLabelCode (Hs Ws Hd Wd : ℕ) (img : ℕ → ℕ → ℚ) : ℕ → ℕ → ℚ :=
  if Hs = Hd ∧ Ws = Wd then normalize255 img
  else resizeLinear Hs Ws Hd Wd (normalize255 img)

/-- Modelled from the spec: read the image, resize to the target
resolution if needed, then normalize to [0,1]. -/
def loadLabelSpec (Hs Ws Hd Wd : ℕ) (img : ℕ → ℕ → ℚ) : ℕ → ℕ → ℚ :=
  if Hs = Hd ∧ Ws = Wd then normalize255 img
  else normalize255 (resizeLinear Hs Ws Hd Wd img)

/-- Claim C8: the pipeline the dataset applies (normalize by 255 before
resizing) is equivalent to the resize-then-normalize order of the
specification, because linear interpolation commutes with the constant
scaling. -/
theorem load_order_equiv (Hs Ws Hd Wd : ℕ) (img : ℕ → ℕ → ℚ) :
    loadLabelCode Hs Ws Hd Wd img = loadLabelSpec Hs Ws Hd Wd img := by
  unfold loadLabelCode loadLabelSpec
  by_cases h : Hs = Hd ∧ Ws = Wd
  · rw [if_pos h, if_pos h]
  · rw [if_neg h, if_neg h]
    funext y x
    unfold resizeLinear normalize255
    dsimp only
    ring

/- ## Claim C5: the expected surviving count of the subsampling step -/

theorem sum_countTrue_applyDraws (n L : ℕ) (m0 : List Bool)
    (hm : m0.length = n) :
    (∑ f : Fin L → Fin n,
      countTrue (applyDraws m0 ((List.finRange L).map fun k => ((f k : ℕ)))))
    = countTrue m0 * (n - 1) ^ L := by
  have hcount : ∀ ds : List ℕ, countTrue (applyDraws m0 ds)
      = ∑ p ∈ Finset.range n,
          if m0.getD p false = true ∧ p ∉ ds then 1 else 0 := by
    intro ds
    have h1 : countTrue (applyDraws m0 ds)
        = (selectedIdx n (applyDraws m0 ds)).length := by
      rw [countTrue_eq_length_selected, applyDraws_length, hm]
    rw [h1]
    unfold selectedIdx
    rw [length_filter_range]
    refine Finset.sum_congr rfl fun p _ => ?_
    rw [applyDraws_getD]
    by_cases h2 : p ∈ ds
    · simp [h2]
    · by_cases h3 : m0.getD p false = true
      · simp [h2, h3]
      · simp [h2, h3]
  have hswap : (∑ f : Fin L → Fin n,
      countTrue (applyDraws m0 ((List.finRange L).map fun k => ((f k : ℕ)))))
      = ∑ p ∈ Finset.range n, ∑ f : Fin L → Fin n,
          if m0.getD p false = true ∧
             p ∉ (List.finRange L).map (fun k => ((f k : ℕ))) then 1 else 0 := by
    rw [← Finset.sum_comm]
    exact Finset.sum_congr rfl fun f _ => hcount _
  rw [hswap]
  have hinner : ∀ p ∈ Finset.range n, (∑ f : Fin L → Fin n,
      if m0.getD p false = true ∧
         p ∉ (List.finRange L).map (fun k => ((f k : ℕ))) then 1 else 0)
      = (if m0.getD p false = true then 1 else 0) * (n - 1) ^ L := by
    intro p hp
    have hpn : p < n := Finset.mem_range.mp hp
    by_cases h3 : m0.getD p false = true
    · have hiff : ∀ f : Fin L → Fin n,
          (p ∉ (List.finRange L).map fun k => ((f k : ℕ))) ↔
            ∀ k, f k ≠ ⟨p, hpn⟩ := by
        intro f
        constructor
        · intro hnot k hc
          exact hnot (List.mem_map.mpr ⟨k, List.mem_finRange k, by rw [hc]⟩)
        · intro hall hc
          obtain ⟨k, -, hk⟩ := List.mem_map.mp hc
          exact hall k (Fin.ext hk)
      have hstep : (∑ f : Fin L → Fin n,
          if m0.getD p false = true ∧
             p ∉ (List.finRange L).map (fun k => ((f k : ℕ))) then 1 else 0)
          = ∑ f : Fin L → Fin n, if (∀ k, f k ≠ ⟨p, hpn⟩) then 1 else 0 :=
        Finset.sum_congr rfl fun f _ => by
          rw [if_congr (Iff.intro (fun hc => (hiff f).mp hc.2)
            (fun hc => ⟨h3, (hiff f).mpr hc⟩)) rfl rfl]
      rw [hstep, h3, if_pos rfl, one_mul, ← Finset.card_filter]
      rw [← Fintype.card_subtype]
      rw [Fintype.card_congr
        (Equiv.subtypePiEquivPi (p := fun _ b => b ≠ (⟨p, hpn⟩ : Fin n)))]
      rw [Fintype.card_fun, Fintype.card_fin]
      congr 1
      have hcompl : Fintype.card {x : Fin n // ¬ x = ⟨p, hpn⟩} =
          Fintype.card (Fin n) - Fintype.card {x : Fin n // x = ⟨p, hpn⟩} :=
        Fintype.card_subtype_compl _
      rw [show Fintype.card {x : Fin n // x ≠ ⟨p, hpn⟩} =
            Fintype.card {x : Fin n // ¬ x = ⟨p, hpn⟩} from rfl, hcompl,
        Fintype.card_subtype_eq, Fintype.card_fin]
    · have hstep : (∑ f : Fin L → Fin n,
          if m0.getD p false = true ∧
             p ∉ (List.finRange L).map (fun k => ((f k : ℕ))) then 1 else 0)
          = 0 := by
        refine Finset.sum_eq_zero fun f _ => ?_
        rw [if_neg]
        intro hc
        exact h3 hc.1
      rw [hstep, if_neg h3, zero_mul]
  rw [Finset.sum_congr rfl hinner, ← Finset.sum_mul]
  congr 1
  have h4 : countTrue m0 = (selectedIdx n m0).length := by
    rw [countTrue_eq_length_selected, hm]
  rw [h4]
  unfold selectedIdx
  rw [length_filter_range]

/-- Claim C5 counterexample: the claim asserts for every base > limit > 0
that the surviving count is not guaranteed to equal the limit.  At a grid
of H*W = 2 pixels with both depths nonzero (base = 2) and limit 1, the
computed draw count is L = 1 and both possible single draws leave exactly
1 surviving valid pixel: the surviving count is guaranteed to equal the
limit at this instance. -/
theorem subsample_exact_counterexample :
    Ldraws 1 2 [1, 1] 1 = 1 ∧
    countTrue (applyDraws (mask0 [1, 1]) [0]) = 1 ∧
    countTrue (applyDraws (mask0 [1, 1]) [1]) = 1 := by
  have hcnt : countTrue (mask0 ([1, 1] : List ℚ)) = 2 := by decide
  refine ⟨?_, by decide, by decide⟩
  show computeL (1 - 1 / ((1 * 2 : ℕ) : ℚ))
      (((1 : ℤ) : ℚ) / (countTrue (mask0 ([1, 1] : List ℚ)) : ℚ)) = 1
  rw [hcnt]
  have hg : (0 : ℚ) ≤ 1 - 1 / ((1 * 2 : ℕ) : ℚ) ∧
      (1 - 1 / ((1 * 2 : ℕ) : ℚ)) < 1 ∧
      (0 : ℚ) < ((1 : ℤ) : ℚ) / ((2 : ℕ) : ℚ) := by
    norm_num
  rw [computeL, dif_pos hg, Nat.find_eq_iff]
  refine ⟨by norm_num, ?_⟩
  intro m hm
  have hm0 : m = 0 := by omega
  subst hm0
  norm_num

/-- Claim C5 (amended): subsampling is a probabilistic approximation and in
general the surviving count need not equal the limit, although for some
parameters every draw yields exactly the limit (see the counterexample).
For 0 < limit < base over an H*W grid, with L as computed by the code, the
average surviving count over all (H*W)^L equally likely draw sequences is
exactly base * (1 - 1/(H*W))^L, and this expected value lies between limit
(inclusive) and limit / (1 - 1/(H*W)) (exclusive). -/
theorem subsample_expectation (H W : ℕ) (depth : List ℚ) (l : ℤ)
    (hm : depth.length = H * W) (hl : 0 < l)
    (hlb : l < (countTrue (mask0 depth) : ℤ)) :
    ((∑ f : Fin (Ldraws H W depth l) → Fin (H * W),
        (countTrue (applyDraws (mask0 depth)
          ((List.finRange (Ldraws H W depth l)).map fun k => ((f k : ℕ)))) : ℚ))
      / ((H * W : ℕ) : ℚ) ^ Ldraws H W depth l
      = (countTrue (mask0 depth) : ℚ) *
          (1 - 1 / ((H * W : ℕ) : ℚ)) ^ Ldraws H W depth l) ∧
    ((l : ℚ) ≤ (countTrue (mask0 depth) : ℚ) *
        (1 - 1 / ((H * W : ℕ) : ℚ)) ^ Ldraws H W depth l) ∧
    ((countTrue (mask0 depth) : ℚ) *
        (1 - 1 / ((H * W : ℕ) : ℚ)) ^ Ldraws H W depth l
      < (l : ℚ) / (1 - 1 / ((H * W : ℕ) : ℚ))) := by
  have hB2 : 2 ≤ countTrue (mask0 depth) := by omega
  have hn2 : 2 ≤ H * W := by
    have h1 : countTrue (mask0 depth) ≤ (mask0 depth).length :=
      List.count_le_length true (mask0 depth)
    rw [mask0_length, hm] at h1
    omega
  have hnQ : (2 : ℚ) ≤ ((H * W : ℕ) : ℚ) := by exact_mod_cast hn2
  have hnpos : (0 : ℚ) < ((H * W : ℕ) : ℚ) := by linarith
  have hq0 : (0 : ℚ) < 1 - 1 / ((H * W : ℕ) : ℚ) := by
    have : 1 / ((H * W : ℕ) : ℚ) ≤ 1 / 2 :=
      one_div_le_one_div_of_le (by norm_num) hnQ
    linarith
  have hq1 : 1 - 1 / ((H * W : ℕ) : ℚ) < 1 := by
    have : (0 : ℚ) < 1 / ((H * W : ℕ) : ℚ) := one_div_pos.mpr hnpos
    linarith
  have hBQ : (0 : ℚ) < (countTrue (mask0 depth) : ℚ) := by
    exact_mod_cast (by omega : (0 : ℕ) < countTrue (mask0 depth))
  have hlQ : (0 : ℚ) < (l : ℚ) := by exact_mod_cast hl
  have hltQ : (l : ℚ) < (countTrue (mask0 depth) : ℚ) := by exact_mod_cast hlb
  have hr0 : (0 : ℚ) < (l : ℚ) / (countTrue (mask0 depth) : ℚ) :=
    div_pos hlQ hBQ
  have hr1 : (l : ℚ) / (countTrue (mask0 depth) : ℚ) < 1 :=
    (div_lt_one hBQ).mpr hltQ
  obtain ⟨hpow_lt, hle_pow⟩ := computeL_spec _ _ hq0.le hq1 hr0 hr1
  have hL : Ldraws H W depth l =
      computeL (1 - 1 / ((H * W : ℕ) : ℚ))
        ((l : ℚ) / (countTrue (mask0 depth) : ℚ)) := rfl
  rw [← hL] at hpow_lt hle_pow
  refine ⟨?_, ?_, ?_⟩
  · have hmain := sum_countTrue_applyDraws (H * W) (Ldraws H W depth l)
      (mask0 depth) (by rw [mask0_length, hm])
    have hcast : (∑ f : Fin (Ldraws H W depth l) → Fin (H * W),
        (countTrue (applyDraws (mask0 depth)
          ((List.finRange (Ldraws H W depth l)).map fun k => ((f k : ℕ)))) : ℚ))
        = ((countTrue (mask0 depth) * (H * W - 1) ^ Ldraws H W depth l : ℕ) : ℚ) := by
      rw [← hmain]
      exact (Nat.cast_sum _ _).symm
    rw [hcast]
    have hn1 : (1 : ℕ) ≤ H * W := le_trans one_le_two hn2
    have hne : ((H * W : ℕ) : ℚ) ≠ 0 := ne_of_gt hnpos
    have hqeq : 1 - 1 / ((H * W : ℕ) : ℚ) =
        (((H * W : ℕ) : ℚ) - 1) / ((H * W : ℕ) : ℚ) := by
      rw [eq_div_iff hne, sub_mul, one_mul, one_div, inv_mul_cancel₀ hne]
    rw [hqeq, div_pow, Nat.cast_mul, Nat.cast_pow, Nat.cast_sub hn1]
    rw [mul_div_assoc]
    norm_num
  · have h5 := (div_le_iff hBQ).mp hle_pow
    calc (l : ℚ) ≤ (1 - 1 / ((H * W : ℕ) : ℚ)) ^ Ldraws H W depth l *
          (countTrue (mask0 depth) : ℚ) := h5
      _ = (countTrue (mask0 depth) : ℚ) *
          (1 - 1 / ((H * W : ℕ) : ℚ)) ^ Ldraws H W depth l := mul_comm _ _
  · have h5 : (1 - 1 / ((H * W : ℕ) : ℚ)) ^ Ldraws H W depth l *
        (1 - 1 / ((H * W : ℕ) : ℚ)) <
        (l : ℚ) / (countTrue (mask0 depth) : ℚ) := by
      rw [← pow_succ]
      exact hpow_lt
    have h6 := (lt_div_iff hBQ).mp h5
    rw [lt_div_iff hq0]
    nlinarith [h6]

theorem subsample_expectation_witness :
    (([1, 1, 0] : List ℚ).length = 1 * 3) ∧ ((0 : ℤ) < 1) ∧
    ((1 : ℤ) < (countTrue (mask0 ([1, 1, 0] : List ℚ)) : ℤ)) ∧
    (((∑ f : Fin (Ldraws 1 3 [1, 1, 0] 1) → Fin (1 * 3),
        (countTrue (applyDraws (mask0 [1, 1, 0])
          ((List.finRange (Ldraws 1 3 [1, 1, 0] 1)).map fun k => ((f k : ℕ)))) : ℚ))
      / ((1 * 3 : ℕ) : ℚ) ^ Ldraws 1 3 [1, 1, 0] 1
      = (countTrue (mask0 ([1, 1, 0] : List ℚ)) : ℚ) *
          (1 - 1 / ((1 * 3 : ℕ) : ℚ)) ^ Ldraws 1 3 [1, 1, 0] 1) ∧
    (((1 : ℤ) : ℚ) ≤ (countTrue (mask0 ([1, 1, 0] : List ℚ)) : ℚ) *
        (1 - 1 / ((1 * 3 : ℕ) : ℚ)) ^ Ldraws 1 3 [1, 1, 0] 1) ∧
    ((countTrue (mask0 ([1, 1, 0] : List ℚ)) : ℚ) *
        (1 - 1 / ((1 * 3 : ℕ) : ℚ)) ^ Ldraws 1 3 [1, 1, 0] 1
      < ((1 : ℤ) : ℚ) / (1 - 1 / ((1 * 3 : ℕ) : ℚ)))) :=
  ⟨by decide, by decide, by decide,
   subsample_expectation 1 3 [1, 1, 0] 1 (by decide) (by decide) (by decide)⟩

end SurfaceRegression
